import Mathlib

/-!
Verification development for the lovefield diff calculator
(src/lib/diff_calculator.js).

The JavaScript data model is shallowly embedded as follows: field values
and row payloads are `Int`; data-type tags are `Nat`; object reference
identity of a result entry (JavaScript `==` between entry objects) is
modelled by a numeric `id` carried by each entry, so that two list
elements denote the same JavaScript object exactly when their `id`s
coincide.  The mutable observed array is threaded explicitly as a
`List Int`, and each `Array.prototype.splice` call performed on it is
additionally recorded as an `Op` so that theorems can count and replay
the mutations.
-/

namespace Lf

/-- Model of `lf.schema.Column`: a projected column, exposing a data-type tag
(`getType()`, here `ty`) and an identity used for field extraction. -/
structure Column where
  ty : Nat
  name : Nat
deriving DecidableEq

/-- Model of `lf.eval.Type`: the operator kinds of the evaluator registry.  Only
`EQ` is used by the diff calculator. -/
inductive EvalType where
  | EQ
  | NEQ
  | GT
  | GTE
  | LT
  | LTE
deriving DecidableEq

/-- Model of `lf.eval.Registry` (external service `lf.service.EVAL_REGISTRY`):
`getEvaluator(dataType, evalType)` yields a binary predicate on field
values. -/
structure Registry where
  getEvaluator : Nat → EvalType → Int → Int → Bool

/-- The row carried by a relation entry; `payload()` is the raw object
stored into the observed array. -/
structure Row where
  payload : Int

/-- Model of `lf.proc.RelationEntry`: `id` models JavaScript object identity,
`row` carries the raw payload, and `getField` extracts the value of a
column. -/
structure Entry where
  id : Nat
  row : Row
  getField : Column → Int

/-- Default entry used to totalise out-of-range array indexing. -/
def dEntry : Entry := ⟨0, ⟨0⟩, fun _ => 0⟩

/-- A schema table, exposing `getColumns()`. -/
structure Table where
  getColumns : List Column

/-- Model of `lf.query.SelectContext`: the projected column list, the `from`
table list and the optional `innerJoin` table (the only parts the diff
calculator reads). -/
structure SelectContext where
  columns : List Column
  from_ : List Table
  innerJoin : Option Table

/-- Model of `lf.proc.Relation`: an ordered result set. -/
structure Relation where
  entries : List Entry

/-- Model of `lf.DiffCalculator.prototype.detectColumns_` (lines 55-73): return
the explicitly projected columns when non-empty, otherwise collect every
column of every `from` table followed by the columns of the `innerJoin`
table when present.  The nested `forEach`/`push` loops are modelled by a
left fold that appends each table column list. -/
def detectColumns_ (query : SelectContext) : List Column :=
  if query.columns.length > 0 then
    query.columns
  else
    let tables :=
      match query.innerJoin with
      | some t => query.from_ ++ [t]
      | none => query.from_
    tables.foldl (fun cols table => cols ++ table.getColumns) []

/-- Model of `lf.DiffCalculator.prototype.comparator_` (lines 85-92): two entries
are identical when, for every projected column, the `EQ` evaluator for
the column data type accepts the two field values. -/
def comparator_ (reg : Registry) (columns : List Column) (left right : Entry) : Bool :=
  columns.all (fun column =>
    reg.getEvaluator column.ty EvalType.EQ (left.getField column) (right.getField column))

/-- One observable mutation of the observed array: a `splice(pos, 1)`
removal request or a `splice(pos, 0, payload)` insertion. -/
inductive Op where
  | del (pos : Nat)
  | ins (pos : Nat) (payload : Int)
deriving DecidableEq

/-- Whether an operation is a deletion splice. -/
def Op.isDel : Op → Bool
  | .del _ => true
  | .ins _ _ => false

/-- Whether an operation is an insertion splice. -/
def Op.isIns : Op → Bool
  | .del _ => false
  | .ins _ _ => true

/-- Model of `observableResults_.splice(i, 1)`: remove the element at position
`i` when it exists; a start position at or beyond the length removes
nothing, exactly as in JavaScript. -/
def spliceRemove (l : List Int) (i : Nat) : List Int :=
  l.take i ++ l.drop (i + 1)

/-- Model of `observableResults_.splice(i, 0, x)`: insert `x` at position `i`,
clamped to the length, exactly as in JavaScript. -/
def spliceInsert (l : List Int) (i : Nat) (x : Int) : List Int :=
  l.take i ++ x :: l.drop i

/-- The guard `lcsResult[commonIndex] == entry` of both loops: an
out-of-range access yields `undefined`, which compares unequal to every
entry object. -/
def instMatchAt (keep : List Entry) (c : Nat) (entry : Entry) : Bool :=
  match keep[c]? with
  | some e => e.id == entry.id
  | none => false

/-- The deletion loop of `applyDiff` (lines 119-128): walk `oldEntries`
with index `i` and cursor `commonIndex` `c` into the left LCS array;
advance the cursor on an identity match, otherwise `splice(i, 1)` the
observed array.  Returns the final observed array and the recorded
splice operations. -/
def deletionPassIdx (keep : List Entry) : List Entry → Nat → Nat → List Int → List Int × List Op
  | [], _, _, obs => (obs, [])
  | entry :: rest, i, c, obs =>
    if instMatchAt keep c entry then
      deletionPassIdx keep rest (i + 1) (c + 1) obs
    else
      let r := deletionPassIdx keep rest (i + 1) c (spliceRemove obs i)
      (r.1, Op.del i :: r.2)

/-- The insertion loop of `applyDiff` (lines 138-147): walk
`newResults.entries` with index `i` and cursor `commonIndex` `c` into
the right LCS array; advance the cursor on an identity match, otherwise
`splice(i, 0, entry.row.payload())`. -/
def insertionPassIdx (keep : List Entry) : List Entry → Nat → Nat → List Int → List Int × List Op
  | [], _, _, obs => (obs, [])
  | entry :: rest, i, c, obs =>
    if instMatchAt keep c entry then
      insertionPassIdx keep rest (i + 1) (c + 1) obs
    else
      let r := insertionPassIdx keep rest (i + 1) c (spliceInsert obs i entry.row.payload)
      (r.1, Op.ins i entry.row.payload :: r.2)

/-- Modelled from the spec: the length table of the LCS Engine
(`goog.math.longestCommonSubsequence`, whose Closure source is not part
of this repository).  `lcsT eqF ra rb` is the table value at the cell
addressed by the reversed input slices `ra` and `rb`: the head of each
argument is the last element of the corresponding original slice, so the
recursion is exactly the dynamic-programming recurrence of section 4.3
of the spec. -/
def lcsT (eqF : α → α → Bool) : List α → List α → Nat
  | [], _ => 0
  | _, [] => 0
  | a :: ra, b :: rb =>
    if eqF a b then lcsT eqF ra rb + 1
    else max (lcsT eqF ra (b :: rb)) (lcsT eqF (a :: ra) rb)
termination_by ra rb => ra.length + rb.length
decreasing_by all_goals simp +arith

/-- Modelled from the spec: the backward walk of the LCS Engine over the
length table, started from the full lengths, preferring the diagonal
step whenever the equality predicate holds at the cell and otherwise the
neighbour with the larger table value, ties preferring the direction
that consumes the first sequence.  Arguments are reversed slices as in
`lcsT`; the emitted pairs are indices into the original sequences, in
decreasing order. -/
def lcsPairsRev (eqF : α → α → Bool) : List α → List α → List (Nat × Nat)
  | [], _ => []
  | _, [] => []
  | a :: ra, b :: rb =>
    if eqF a b then
      (ra.length, rb.length) :: lcsPairsRev eqF ra rb
    else if lcsT eqF (a :: ra) rb ≤ lcsT eqF ra (b :: rb) then
      lcsPairsRev eqF ra (b :: rb)
    else
      lcsPairsRev eqF (a :: ra) rb
termination_by ra rb => ra.length + rb.length
decreasing_by all_goals simp +arith

/-- The matched index pairs of the two sequences, in increasing order
(the reference backtracking builds its result with `unshift`). -/
def lcsPairs (eqF : α → α → Bool) (A B : List α) : List (Nat × Nat) :=
  (lcsPairsRev eqF A.reverse B.reverse).reverse

/-- Modelled from the spec: `goog.math.longestCommonSubsequence(array1,
array2, compareFn, collectorFn)` — compute one longest common
subsequence of the two arrays under `compareFn` and map every matched
index pair through `collectorFn`. -/
def longestCommonSubsequence (A B : List α) (compareFn : α → α → Bool)
    (collectorFn : Nat → Nat → β) : List β :=
  (lcsPairs compareFn A B).map (fun p => collectorFn p.1 p.2)

/-- Model of `lf.DiffCalculator.prototype.applyDiff` (lines 108-148): a `null`
old result is treated as an empty entry list; the LCS is computed twice
over `(oldEntries, newResults.entries)` with the bound `comparator_`,
once collecting the left-side entries and once the right-side entries;
the deletion loop and then the insertion loop patch the observed array.
Returns the final observed array together with the splice operations
performed on it, in order. -/
def applyDiff (reg : Registry) (columns : List Column) (oldResults : Option Relation)
    (newResults : Relation) (obs : List Int) : List Int × List Op :=
  let oldEntries :=
    match oldResults with
    | none => []
    | some r => r.entries
  let lcsLeft := longestCommonSubsequence oldEntries newResults.entries
    (comparator_ reg columns) (fun indexLeft _indexRight => oldEntries.getD indexLeft dEntry)
  let afterDel := deletionPassIdx lcsLeft oldEntries 0 0 obs
  let lcsRight := longestCommonSubsequence oldEntries newResults.entries
    (comparator_ reg columns) (fun _indexLeft indexRight => newResults.entries.getD indexRight dEntry)
  let afterIns := insertionPassIdx lcsRight newResults.entries 0 0 afterDel.1
  (afterIns.1, afterDel.2 ++ afterIns.2)

/-- Replay one recorded splice operation against a list. -/
def applyOp (l : List Int) : Op → List Int
  | .del i => spliceRemove l i
  | .ins i x => spliceInsert l i x

/-- Line 109 of `applyDiff`: a `null` old result contributes an empty
entry list. -/
def oldEntriesOf : Option Relation → List Entry
  | none => []
  | some r => r.entries

/-- The LCS length of two sequences under a predicate, as computed by
the dynamic-programming table at its final cell. -/
def lcsLength (eqF : α → α → Bool) (A B : List α) : Nat :=
  lcsT eqF A.reverse B.reverse

/-- Predicate that `k` is the length of a longest common subsequence of `A` and `B`
under `eqF`: some pair of pointwise-related sublists of length `k`
exists, and no such pair is longer. -/
def IsLCSLength (eqF : α → α → Bool) (A B : List α) (k : Nat) : Prop :=
  (∃ la lb, la.Sublist A ∧ lb.Sublist B ∧
      List.Forall₂ (fun x y => eqF x y = true) la lb ∧ la.length = k) ∧
  (∀ la lb, la.Sublist A → lb.Sublist B →
      List.Forall₂ (fun x y => eqF x y = true) la lb → la.length ≤ k)

/-- A registry whose equality evaluator is value equality for every
data type, as concrete input for witnesses. -/
def stdReg : Registry := ⟨fun _ _ a b => a == b⟩

/-- A single projected column used by witnesses. -/
def c0 : Column := ⟨0, 0⟩

/-- A one-column projection used by witnesses. -/
def cols0 : List Column := [c0]

/-- Concrete entries for the failing input of the convergence claim. -/
def eA : Entry := ⟨1, ⟨10⟩, fun _ => 1⟩

/-- Second concrete entry for the failing input. -/
def eB : Entry := ⟨2, ⟨20⟩, fun _ => 2⟩

/-- Old-side entries of the section 8 scenario, ids 1, 2, 3. -/
def o1 : Entry := ⟨11, ⟨101⟩, fun _ => 1⟩

/-- Old-side entry with id value 2. -/
def o2 : Entry := ⟨12, ⟨102⟩, fun _ => 2⟩

/-- Old-side entry with id value 3. -/
def o3 : Entry := ⟨13, ⟨103⟩, fun _ => 3⟩

/-- New-side entry matching id value 1. -/
def n1 : Entry := ⟨21, ⟨201⟩, fun _ => 1⟩

/-- New-side entry matching id value 3. -/
def n3 : Entry := ⟨22, ⟨203⟩, fun _ => 3⟩

/-- New-side entry with the fresh id value 4. -/
def n4 : Entry := ⟨23, ⟨204⟩, fun _ => 4⟩

/-- The old result set of the section 8 scenario. -/
def oldScenario : Relation := ⟨[o1, o2, o3]⟩

/-- The new result set of the section 8 scenario. -/
def newScenario : Relation := ⟨[n1, n3, n4]⟩

/-- Columns for the select-all resolution scenario. -/
def colA : Column := ⟨0, 1⟩

/-- Second column of the scenario source table. -/
def colB : Column := ⟨0, 2⟩

/-- Column of the scenario joined table. -/
def colC : Column := ⟨0, 3⟩

/-- Select-all query over a source table with columns a, b and a joined
table with column c. -/
def qJoin : SelectContext := ⟨[], [⟨[colA, colB]⟩], some ⟨[colC]⟩⟩

/-- Select-all query over tables exposing no columns at all. -/
def qEmptyCols : SelectContext := ⟨[], [⟨[]⟩], some ⟨[]⟩⟩

theorem lcsT_nil_left (eqF : α → α → Bool) (B : List α) : lcsT eqF [] B = 0 := by
  rw [lcsT]

theorem lcsT_nil_right (eqF : α → α → Bool) (A : List α) : lcsT eqF A [] = 0 := by
  cases A <;> (rw [lcsT] <;> simp)

theorem lcsT_cons (eqF : α → α → Bool) (a b : α) (ra rb : List α) :
    lcsT eqF (a :: ra) (b :: rb) =
      if eqF a b then lcsT eqF ra rb + 1
      else max (lcsT eqF ra (b :: rb)) (lcsT eqF (a :: ra) rb) := by
  rw [lcsT]

theorem lcsPairsRev_nil_left (eqF : α → α → Bool) (B : List α) :
    lcsPairsRev eqF [] B = [] := by
  rw [lcsPairsRev]

theorem lcsPairsRev_nil_right (eqF : α → α → Bool) (A : List α) :
    lcsPairsRev eqF A [] = [] := by
  cases A <;> (rw [lcsPairsRev] <;> simp)

theorem lcsPairsRev_cons (eqF : α → α → Bool) (a b : α) (ra rb : List α) :
    lcsPairsRev eqF (a :: ra) (b :: rb) =
      if eqF a b then (ra.length, rb.length) :: lcsPairsRev eqF ra rb
      else if lcsT eqF (a :: ra) rb ≤ lcsT eqF ra (b :: rb) then lcsPairsRev eqF ra (b :: rb)
      else lcsPairsRev eqF (a :: ra) rb := by
  rw [lcsPairsRev]

theorem rev_pre_getD (A ra t : List α) (a d : α) (h : A = ra.reverse ++ ([a] ++ t)) :
    A.getD ra.length d = a := by
  subst h
  rw [List.getD_eq_getElem?_getD, List.getElem?_append_right (by simp)]
  simp

/-- Structural facts about the backtracking walk, stated over reversed
slices of the original sequences `A` and `B`: every emitted index pair
is in range; the collected left and right entries are sublists of the
respective slices; the predicate holds pairwise between the two
collected lists; and the number of matched pairs is the table value. -/
theorem lcsPairsRev_spec (eqF : α → α → Bool) (d : α) (ra rb : List α) :
    ∀ A B : List α, (∃ t, A = ra.reverse ++ t) → (∃ u, B = rb.reverse ++ u) →
      (∀ p ∈ lcsPairsRev eqF ra rb, p.1 < ra.length ∧ p.2 < rb.length) ∧
      ((lcsPairsRev eqF ra rb).map (fun p => A.getD p.1 d)).reverse.Sublist ra.reverse ∧
      ((lcsPairsRev eqF ra rb).map (fun p => B.getD p.2 d)).reverse.Sublist rb.reverse ∧
      List.Forall₂ (fun x y => eqF x y = true)
        ((lcsPairsRev eqF ra rb).map (fun p => A.getD p.1 d))
        ((lcsPairsRev eqF ra rb).map (fun p => B.getD p.2 d)) ∧
      (lcsPairsRev eqF ra rb).length = lcsT eqF ra rb := by
  induction ra, rb using lcsPairsRev.induct eqF with
  | case1 rb =>
    intro A B _ _
    simp [lcsPairsRev_nil_left, lcsT_nil_left]
  | case2 ra h =>
    intro A B _ _
    simp [lcsPairsRev_nil_right, lcsT_nil_right]
  | case3 a ra b rb heq ih =>
    intro A B hA hB
    obtain ⟨t, ht⟩ := hA
    obtain ⟨u, hu⟩ := hB
    have hA' : ∃ t', A = ra.reverse ++ t' := ⟨[a] ++ t, by simpa using ht⟩
    have hB' : ∃ u', B = rb.reverse ++ u' := ⟨[b] ++ u, by simpa using hu⟩
    obtain ⟨ihBound, ihSubA, ihSubB, ihRel, ihLen⟩ := ih A B hA' hB'
    have hgA : A.getD ra.length d = a := rev_pre_getD A ra t a d (by simpa using ht)
    have hgB : B.getD rb.length d = b := rev_pre_getD B rb u b d (by simpa using hu)
    rw [lcsPairsRev_cons, if_pos heq]
    refine ⟨?_, ?_, ?_, ?_, ?_⟩
    · intro p hp
      rcases List.mem_cons.mp hp with h | h
      · subst h; simp
      · exact ⟨Nat.lt_succ_of_lt (ihBound p h).1, Nat.lt_succ_of_lt (ihBound p h).2⟩
    · rw [List.map_cons, List.reverse_cons, List.reverse_cons]
      show ((lcsPairsRev eqF ra rb).map (fun p => A.getD p.1 d)).reverse ++ [A.getD ra.length d]
        |>.Sublist (ra.reverse ++ [a])
      rw [hgA]
      exact List.Sublist.append ihSubA (List.Sublist.refl [a])
    · rw [List.map_cons, List.reverse_cons, List.reverse_cons]
      show ((lcsPairsRev eqF ra rb).map (fun p => B.getD p.2 d)).reverse ++ [B.getD rb.length d]
        |>.Sublist (rb.reverse ++ [b])
      rw [hgB]
      exact List.Sublist.append ihSubB (List.Sublist.refl [b])
    · rw [List.map_cons, List.map_cons]
      refine List.Forall₂.cons ?_ ihRel
      show eqF (A.getD ra.length d) (B.getD rb.length d) = true
      rw [hgA, hgB]
      exact heq
    · simp [lcsT_cons, heq, ihLen]
  | case4 a ra b rb hne hle ih =>
    intro A B hA hB
    obtain ⟨t, ht⟩ := hA
    obtain ⟨u, hu⟩ := hB
    have hA' : ∃ t', A = ra.reverse ++ t' := ⟨[a] ++ t, by simpa using ht⟩
    obtain ⟨ihBound, ihSubA, ihSubB, ihRel, ihLen⟩ := ih A B hA' ⟨u, hu⟩
    rw [lcsPairsRev_cons, if_neg hne, if_pos hle]
    refine ⟨?_, ?_, ihSubB, ihRel, ?_⟩
    · intro p hp
      exact ⟨Nat.lt_succ_of_lt (ihBound p hp).1, (ihBound p hp).2⟩
    · rw [List.reverse_cons]
      exact ihSubA.trans (List.sublist_append_left ra.reverse [a])
    · rw [lcsT_cons, if_neg hne, Nat.max_eq_left hle, ihLen]
  | case5 a ra b rb hne hgt ih =>
    intro A B hA hB
    obtain ⟨t, ht⟩ := hA
    obtain ⟨u, hu⟩ := hB
    have hB' : ∃ u', B = rb.reverse ++ u' := ⟨[b] ++ u, by simpa using hu⟩
    obtain ⟨ihBound, ihSubA, ihSubB, ihRel, ihLen⟩ := ih A B ⟨t, ht⟩ hB'
    rw [lcsPairsRev_cons, if_neg hne, if_neg hgt]
    refine ⟨?_, ihSubA, ?_, ihRel, ?_⟩
    · intro p hp
      exact ⟨(ihBound p hp).1, Nat.lt_succ_of_lt (ihBound p hp).2⟩
    · rw [List.reverse_cons]
      exact ihSubB.trans (List.sublist_append_left rb.reverse [b])
    · rw [lcsT_cons, if_neg hne, Nat.max_eq_right (Nat.le_of_not_le hgt), ihLen]

/-- The front-side restatement of `lcsPairsRev_spec`: the matched pairs
of `lcsPairs` are in range, the collected left and right lists are
sublists of `A` and `B`, they are pointwise related by `eqF`, and there
are `lcsLength eqF A B` of them. -/
theorem lcsPairs_spec (eqF : α → α → Bool) (d : α) (A B : List α) :
    (∀ p ∈ lcsPairs eqF A B, p.1 < A.length ∧ p.2 < B.length) ∧
    ((lcsPairs eqF A B).map (fun p => A.getD p.1 d)).Sublist A ∧
    ((lcsPairs eqF A B).map (fun p => B.getD p.2 d)).Sublist B ∧
    List.Forall₂ (fun x y => eqF x y = true)
      ((lcsPairs eqF A B).map (fun p => A.getD p.1 d))
      ((lcsPairs eqF A B).map (fun p => B.getD p.2 d)) ∧
    (lcsPairs eqF A B).length = lcsLength eqF A B := by
  obtain ⟨hBound, hSubA, hSubB, hRel, hLen⟩ :=
    lcsPairsRev_spec eqF d A.reverse B.reverse A B
      ⟨[], by simp⟩ ⟨[], by simp⟩
  refine ⟨?_, ?_, ?_, ?_, ?_⟩
  · intro p hp
    have := hBound p (List.mem_reverse.mp hp)
    simpa using this
  · have : ((lcsPairsRev eqF A.reverse B.reverse).map
        (fun p => A.getD p.1 d)).reverse.Sublist A := by simpa using hSubA
    simpa [lcsPairs, List.map_reverse] using this
  · have : ((lcsPairsRev eqF A.reverse B.reverse).map
        (fun p => B.getD p.2 d)).reverse.Sublist B := by simpa using hSubB
    simpa [lcsPairs, List.map_reverse] using this
  · have := List.rel_reverse hRel
    simpa [lcsPairs, List.map_reverse] using this
  · simpa [lcsPairs, lcsLength] using hLen

/-- The four elementary table inequalities: prepending one element to
either sequence never decreases the table value and increases it by at
most one. -/
theorem lcsT_cons_bounds (eqF : α → α → Bool) :
    ∀ (n : Nat) (X Z : List α), X.length + Z.length ≤ n →
      (∀ x, lcsT eqF X Z ≤ lcsT eqF (x :: X) Z ∧ lcsT eqF (x :: X) Z ≤ lcsT eqF X Z + 1) ∧
      (∀ z, lcsT eqF X Z ≤ lcsT eqF X (z :: Z) ∧ lcsT eqF X (z :: Z) ≤ lcsT eqF X Z + 1) := by
  intro n
  induction n with
  | zero =>
    intro X Z h
    have hX : X = [] := List.length_eq_zero.mp (by omega)
    have hZ : Z = [] := List.length_eq_zero.mp (by omega)
    subst hX; subst hZ
    constructor
    · intro x
      simp [lcsT_nil_left, lcsT_nil_right]
    · intro z
      simp [lcsT_nil_left, lcsT_nil_right]
  | succ n ih =>
    intro X Z h
    constructor
    · intro x
      cases Z with
      | nil => simp [lcsT_nil_right]
      | cons z zs =>
        have hm : X.length + zs.length ≤ n := by simp at h; omega
        rw [lcsT_cons]
        by_cases hx : eqF x z
        · rw [if_pos hx]
          exact ⟨((ih X zs hm).2 z).2,
            Nat.succ_le_succ ((ih X zs hm).2 z).1⟩
        · rw [if_neg hx]
          refine ⟨Nat.le_max_left _ _, Nat.max_le.mpr ⟨Nat.le_succ_of_le (Nat.le_refl _), ?_⟩⟩
          exact (((ih X zs hm).1 x).2).trans (Nat.succ_le_succ ((ih X zs hm).2 z).1)
    · intro z
      cases X with
      | nil => simp [lcsT_nil_left]
      | cons x xs =>
        have hm : xs.length + Z.length ≤ n := by simp at h; omega
        rw [lcsT_cons]
        by_cases hx : eqF x z
        · rw [if_pos hx]
          exact ⟨((ih xs Z hm).1 x).2,
            Nat.succ_le_succ ((ih xs Z hm).1 x).1⟩
        · rw [if_neg hx]
          refine ⟨Nat.le_max_right _ _, Nat.max_le.mpr ⟨?_, Nat.le_succ_of_le (Nat.le_refl _)⟩⟩
          exact (((ih xs Z hm).2 z).2).trans (Nat.succ_le_succ ((ih xs Z hm).1 x).1)

/-- Maximality of the table value: every pair of pointwise-related
sublists is at most as long as the table value. -/
theorem lcsT_maximal (eqF : α → α → Bool) :
    ∀ (n : Nat) (X Y la lb : List α), X.length + Y.length ≤ n →
      la.Sublist X → lb.Sublist Y →
      List.Forall₂ (fun x y => eqF x y = true) la lb →
      la.length ≤ lcsT eqF X Y := by
  intro n
  induction n with
  | zero =>
    intro X Y la lb h hla hlb hrel
    have hX : X = [] := List.length_eq_zero.mp (by omega)
    subst hX
    have : la = [] := List.sublist_nil.mp hla
    simp [this]
  | succ n ih =>
    intro X Y la lb h hla hlb hrel
    cases hrel with
    | nil => simp
    | @cons a b la' lb' hab hrel' =>
      cases X with
      | nil => exact absurd (List.sublist_nil.mp hla) (by simp)
      | cons x xs =>
        cases Y with
        | nil => exact absurd (List.sublist_nil.mp hlb) (by simp)
        | cons y ys =>
          have hmX : xs.length + (y :: ys).length ≤ n := by simp at h ⊢; omega
          cases hla with
          | cons _ hla' =>
            have hrec := ih xs (y :: ys) (a :: la') (b :: lb') hmX hla' hlb
              (List.Forall₂.cons hab hrel')
            exact hrec.trans (((lcsT_cons_bounds eqF n xs (y :: ys) hmX).1 x).1)
          | cons₂ _ hla' =>
            cases hlb with
            | cons _ hlb' =>
              have hmY : (a :: xs).length + ys.length ≤ n := by simp at h ⊢; omega
              have hrec := ih (a :: xs) ys (a :: la') (b :: lb') hmY
                (List.Sublist.cons₂ a hla') hlb' (List.Forall₂.cons hab hrel')
              exact hrec.trans (((lcsT_cons_bounds eqF n (a :: xs) ys hmY).2 y).1)
            | cons₂ _ hlb' =>
              have hm : xs.length + ys.length ≤ n := by simp at h ⊢; omega
              rw [lcsT_cons, if_pos hab]
              exact Nat.succ_le_succ (ih xs ys la' lb' hm hla' hlb' hrel')

/-- The value `lcsLength` is the true longest-common-subsequence length. -/
theorem lcsLength_isLCSLength (eqF : α → α → Bool) (d : α) (A B : List α) :
    IsLCSLength eqF A B (lcsLength eqF A B) := by
  obtain ⟨_, hSubA, hSubB, hRel, hLen⟩ := lcsPairs_spec eqF d A B
  constructor
  · exact ⟨_, _, hSubA, hSubB, hRel, by simpa using hLen⟩
  · intro la lb hla hlb hrel
    have := lcsT_maximal eqF (A.reverse.length + B.reverse.length) A.reverse B.reverse
      la.reverse lb.reverse (Nat.le_refl _) hla.reverse hlb.reverse
      (List.rel_reverse hrel)
    simpa [lcsLength] using this

theorem instMatchAt_eq_drop (keep : List Entry) (c : Nat) (entry : Entry) :
    instMatchAt keep c entry =
      match keep.drop c with
      | [] => false
      | e :: _ => e.id == entry.id := by
  unfold instMatchAt
  rw [← List.head?_drop]
  cases keep.drop c <;> simp

/-- Counting the deletion loop: when the cursor slice of the keep array
is a sublist of the walked entries and entry identities are pairwise
distinct, the loop issues exactly one deletion splice per entry that is
not part of the keep slice, and nothing else. -/
theorem deletionPassIdx_count :
    ∀ (entries keep : List Entry) (i c : Nat) (obs : List Int),
      (keep.drop c).Sublist entries → (entries.map Entry.id).Nodup →
      (deletionPassIdx keep entries i c obs).2.length
          = entries.length - (keep.drop c).length ∧
      ∀ op ∈ (deletionPassIdx keep entries i c obs).2, op.isDel = true := by
  intro entries
  induction entries with
  | nil =>
    intro keep i c obs _ _
    simp [deletionPassIdx]
  | cons e rest ih =>
    intro keep i c obs hsub hnd
    rcases hK : keep.drop c with - | ⟨k, kr⟩
    · have hmatch : instMatchAt keep c e = false := by
        rw [instMatchAt_eq_drop, hK]
      rw [deletionPassIdx, if_neg (by simp [hmatch])]
      have hrec := ih keep (i + 1) c (spliceRemove obs i)
        (by rw [hK]; exact List.nil_sublist rest) (List.Nodup.of_cons hnd)
      rw [hK] at hrec
      refine ⟨by simp [hrec.1], ?_⟩
      intro op hop
      rcases List.mem_cons.mp (by simpa using hop) with h | h
      · subst h; rfl
      · exact hrec.2 op h
    · rw [hK] at hsub
      have hdropsucc : keep.drop (c + 1) = kr := by
        have hstep : keep.drop (c + 1) = (keep.drop c).drop 1 := by
          rw [List.drop_drop]
        simp [hstep, hK]
      cases hsub with
      | cons₂ _ hsub' =>
        have hmatch : instMatchAt keep c e = true := by
          rw [instMatchAt_eq_drop, hK]
          exact beq_self_eq_true e.id
        rw [deletionPassIdx, if_pos (by simp [hmatch])]
        have hrec := ih keep (i + 1) (c + 1) obs (by rw [hdropsucc]; exact hsub')
          (List.Nodup.of_cons hnd)
        rw [hdropsucc] at hrec
        exact ⟨by simp [hrec.1, Nat.succ_sub_succ], hrec.2⟩
      | cons _ hsub' =>
        have hkmem : k.id ∈ rest.map Entry.id :=
          List.mem_map_of_mem Entry.id (hsub'.subset (List.mem_cons_self k kr))
        have hne : k.id ≠ e.id := by
          intro hcontra
          rw [List.map_cons, List.nodup_cons] at hnd
          exact hnd.1 (hcontra ▸ hkmem)
        have hmatch : instMatchAt keep c e = false := by
          rw [instMatchAt_eq_drop, hK]
          exact beq_eq_false_iff_ne.mpr hne
        rw [deletionPassIdx, if_neg (by simp [hmatch])]
        have hrec := ih keep (i + 1) c (spliceRemove obs i) (by rw [hK]; exact hsub')
          (List.Nodup.of_cons hnd)
        rw [hK] at hrec
        have hlen : (k :: kr).length ≤ rest.length := List.Sublist.length_le hsub'
        refine ⟨?_, ?_⟩
        · show (Op.del i :: (deletionPassIdx keep rest (i + 1) c (spliceRemove obs i)).2).length
            = (e :: rest).length - (k :: kr).length
          simp only [List.length_cons, hrec.1] at hlen ⊢
          omega
        · intro op hop
          rcases List.mem_cons.mp (by simpa using hop) with h | h
          · subst h; rfl
          · exact hrec.2 op h

/-- Counting the insertion loop: one insertion splice per new entry not
part of the keep slice, and nothing else. -/
theorem insertionPassIdx_count :
    ∀ (entries keep : List Entry) (i c : Nat) (obs : List Int),
      (keep.drop c).Sublist entries → (entries.map Entry.id).Nodup →
      (insertionPassIdx keep entries i c obs).2.length
          = entries.length - (keep.drop c).length ∧
      ∀ op ∈ (insertionPassIdx keep entries i c obs).2, op.isIns = true := by
  intro entries
  induction entries with
  | nil =>
    intro keep i c obs _ _
    simp [insertionPassIdx]
  | cons e rest ih =>
    intro keep i c obs hsub hnd
    rcases hK : keep.drop c with - | ⟨k, kr⟩
    · have hmatch : instMatchAt keep c e = false := by
        rw [instMatchAt_eq_drop, hK]
      rw [insertionPassIdx, if_neg (by simp [hmatch])]
      have hrec := ih keep (i + 1) c (spliceInsert obs i e.row.payload)
        (by rw [hK]; exact List.nil_sublist rest) (List.Nodup.of_cons hnd)
      rw [hK] at hrec
      refine ⟨by simp [hrec.1], ?_⟩
      intro op hop
      rcases List.mem_cons.mp (by simpa using hop) with h | h
      · subst h; rfl
      · exact hrec.2 op h
    · rw [hK] at hsub
      have hdropsucc : keep.drop (c + 1) = kr := by
        have hstep : keep.drop (c + 1) = (keep.drop c).drop 1 := by
          rw [List.drop_drop]
        simp [hstep, hK]
      cases hsub with
      | cons₂ _ hsub' =>
        have hmatch : instMatchAt keep c e = true := by
          rw [instMatchAt_eq_drop, hK]
          exact beq_self_eq_true e.id
        rw [insertionPassIdx, if_pos (by simp [hmatch])]
        have hrec := ih keep (i + 1) (c + 1) obs (by rw [hdropsucc]; exact hsub')
          (List.Nodup.of_cons hnd)
        rw [hdropsucc] at hrec
        exact ⟨by simp [hrec.1, Nat.succ_sub_succ], hrec.2⟩
      | cons _ hsub' =>
        have hkmem : k.id ∈ rest.map Entry.id :=
          List.mem_map_of_mem Entry.id (hsub'.subset (List.mem_cons_self k kr))
        have hne : k.id ≠ e.id := by
          intro hcontra
          rw [List.map_cons, List.nodup_cons] at hnd
          exact hnd.1 (hcontra ▸ hkmem)
        have hmatch : instMatchAt keep c e = false := by
          rw [instMatchAt_eq_drop, hK]
          exact beq_eq_false_iff_ne.mpr hne
        rw [insertionPassIdx, if_neg (by simp [hmatch])]
        have hrec := ih keep (i + 1) c (spliceInsert obs i e.row.payload)
          (by rw [hK]; exact hsub') (List.Nodup.of_cons hnd)
        rw [hK] at hrec
        have hlen : (k :: kr).length ≤ rest.length := List.Sublist.length_le hsub'
        refine ⟨?_, ?_⟩
        · show (Op.ins i e.row.payload ::
              (insertionPassIdx keep rest (i + 1) c (spliceInsert obs i e.row.payload)).2).length
            = (e :: rest).length - (k :: kr).length
          simp only [List.length_cons, hrec.1] at hlen ⊢
          omega
        · intro op hop
          rcases List.mem_cons.mp (by simpa using hop) with h | h
          · subst h; rfl
          · exact hrec.2 op h

/-- The deletion loop only ever transforms the observed array by
replaying, in order, the splice operations it records. -/
theorem deletionPassIdx_replay :
    ∀ (entries keep : List Entry) (i c : Nat) (obs : List Int),
      (deletionPassIdx keep entries i c obs).1
        = (deletionPassIdx keep entries i c obs).2.foldl applyOp obs := by
  intro entries
  induction entries with
  | nil =>
    intro keep i c obs
    simp [deletionPassIdx]
  | cons e rest ih =>
    intro keep i c obs
    by_cases h : instMatchAt keep c e
    · simp [deletionPassIdx, h, ih]
    · simp only [deletionPassIdx, h, Bool.false_eq_true, if_false, List.foldl_cons]
      exact ih keep (i + 1) c (spliceRemove obs i)

/-- The insertion loop only ever transforms the observed array by
replaying, in order, the splice operations it records. -/
theorem insertionPassIdx_replay :
    ∀ (entries keep : List Entry) (i c : Nat) (obs : List Int),
      (insertionPassIdx keep entries i c obs).1
        = (insertionPassIdx keep entries i c obs).2.foldl applyOp obs := by
  intro entries
  induction entries with
  | nil =>
    intro keep i c obs
    simp [insertionPassIdx]
  | cons e rest ih =>
    intro keep i c obs
    by_cases h : instMatchAt keep c e
    · simp [insertionPassIdx, h, ih]
    · simp only [insertionPassIdx, h, Bool.false_eq_true, if_false, List.foldl_cons]
      exact ih keep (i + 1) c (spliceInsert obs i e.row.payload)

/-- When both sequences are the same list and the predicate is reflexive
on its elements, the backward walk matches every position diagonally. -/
theorem lcsPairsRev_self (eqF : α → α → Bool) :
    ∀ X : List α, (∀ x ∈ X, eqF x x = true) →
      lcsPairsRev eqF X X = (List.range X.length).reverse.map (fun k => (k, k)) := by
  intro X
  induction X with
  | nil => intro _; simp [lcsPairsRev_nil_left]
  | cons x xs ih =>
    intro h
    rw [lcsPairsRev_cons, if_pos (h x (List.mem_cons_self x xs))]
    rw [ih (fun y hy => h y (List.mem_cons_of_mem x hy))]
    simp [List.range_succ]

/-- Diagonal self matching, front side. -/
theorem lcsPairs_self (eqF : α → α → Bool) (A : List α)
    (h : ∀ x ∈ A, eqF x x = true) :
    lcsPairs eqF A A = (List.range A.length).map (fun k => (k, k)) := by
  unfold lcsPairs
  rw [lcsPairsRev_self eqF A.reverse (fun x hx => h x (List.mem_reverse.mp hx))]
  simp [List.map_reverse]

theorem map_getD_range (A : List α) (d : α) :
    (List.range A.length).map (fun k => A.getD k d) = A := by
  apply List.ext_getElem
  · simp
  · intro n h1 h2
    simp only [List.getElem_map, List.getElem_range]
    exact List.getD_eq_getElem A d h2

/-- When the keep slice is exactly the walked entry list, the deletion
loop matches every entry and performs no splice. -/
theorem deletionPassIdx_self :
    ∀ (X keep : List Entry) (i c : Nat) (obs : List Int),
      keep.drop c = X → deletionPassIdx keep X i c obs = (obs, []) := by
  intro X
  induction X with
  | nil =>
    intro keep i c obs _
    simp [deletionPassIdx]
  | cons e rest ih =>
    intro keep i c obs hK
    have hmatch : instMatchAt keep c e = true := by
      rw [instMatchAt_eq_drop, hK]
      exact beq_self_eq_true e.id
    rw [deletionPassIdx, if_pos (by simp [hmatch])]
    apply ih
    have hstep : keep.drop (c + 1) = (keep.drop c).drop 1 := by
      rw [List.drop_drop]
    simp [hstep, hK]

/-- When the keep slice is exactly the walked entry list, the insertion
loop matches every entry and performs no splice. -/
theorem insertionPassIdx_self :
    ∀ (X keep : List Entry) (i c : Nat) (obs : List Int),
      keep.drop c = X → insertionPassIdx keep X i c obs = (obs, []) := by
  intro X
  induction X with
  | nil =>
    intro keep i c obs _
    simp [insertionPassIdx]
  | cons e rest ih =>
    intro keep i c obs hK
    have hmatch : instMatchAt keep c e = true := by
      rw [instMatchAt_eq_drop, hK]
      exact beq_self_eq_true e.id
    rw [insertionPassIdx, if_pos (by simp [hmatch])]
    apply ih
    have hstep : keep.drop (c + 1) = (keep.drop c).drop 1 := by
      rw [List.drop_drop]
    simp [hstep, hK]

/-- The left collector of `applyDiff` projects the matched pairs to the
old-side entries. -/
theorem lcsCollect_left (eqF : Entry → Entry → Bool) (A B : List Entry) :
    longestCommonSubsequence A B eqF (fun indexLeft _indexRight => A.getD indexLeft dEntry)
      = (lcsPairs eqF A B).map (fun p => A.getD p.1 dEntry) := rfl

/-- The right collector of `applyDiff` projects the matched pairs to the
new-side entries. -/
theorem lcsCollect_right (eqF : Entry → Entry → Bool) (A B : List Entry) :
    longestCommonSubsequence A B eqF (fun _indexLeft indexRight => B.getD indexRight dEntry)
      = (lcsPairs eqF A B).map (fun p => B.getD p.2 dEntry) := rfl

/-- Unfolding of `applyDiff` into its two LCS projections and two loops. -/
theorem applyDiff_unfold (reg : Registry) (columns : List Column)
    (oldResults : Option Relation) (newResults : Relation) (obs : List Int) :
    applyDiff reg columns oldResults newResults obs =
      ((insertionPassIdx
          ((lcsPairs (comparator_ reg columns) (oldEntriesOf oldResults) newResults.entries).map
            (fun p => newResults.entries.getD p.2 dEntry))
          newResults.entries 0 0
          (deletionPassIdx
            ((lcsPairs (comparator_ reg columns) (oldEntriesOf oldResults) newResults.entries).map
              (fun p => (oldEntriesOf oldResults).getD p.1 dEntry))
            (oldEntriesOf oldResults) 0 0 obs).1).1,
       (deletionPassIdx
          ((lcsPairs (comparator_ reg columns) (oldEntriesOf oldResults) newResults.entries).map
            (fun p => (oldEntriesOf oldResults).getD p.1 dEntry))
          (oldEntriesOf oldResults) 0 0 obs).2 ++
       (insertionPassIdx
          ((lcsPairs (comparator_ reg columns) (oldEntriesOf oldResults) newResults.entries).map
            (fun p => newResults.entries.getD p.2 dEntry))
          newResults.entries 0 0
          (deletionPassIdx
            ((lcsPairs (comparator_ reg columns) (oldEntriesOf oldResults) newResults.entries).map
              (fun p => (oldEntriesOf oldResults).getD p.1 dEntry))
            (oldEntriesOf oldResults) 0 0 obs).1).2) := by
  cases oldResults <;> rfl

/-- C7: absent-old equivalence — calling `applyDiff` with a `null` old
result on an empty observed array performs the same splice operations
and yields the same final array as calling it with an empty result set
as the old result. -/
theorem applyDiff_absent_old_equiv (reg : Registry) (columns : List Column)
    (newResults : Relation) :
    applyDiff reg columns none newResults [] =
      applyDiff reg columns (some (Relation.mk [])) newResults [] := rfl

/-- C5: the entry comparator returns true exactly when, for every
resolved column, the `EQ` evaluator of the column data type accepts the
two field values; and its result depends only on the field values at the
resolved columns, never on entry identity, payload, or other fields. -/
theorem comparator_structural_eq (reg : Registry) (cols : List Column)
    (left right : Entry) :
    (comparator_ reg cols left right = true ↔
      ∀ column ∈ cols,
        reg.getEvaluator column.ty EvalType.EQ
          (left.getField column) (right.getField column) = true) ∧
    (∀ left' right' : Entry,
      (∀ column ∈ cols, left'.getField column = left.getField column) →
      (∀ column ∈ cols, right'.getField column = right.getField column) →
      comparator_ reg cols left' right' = comparator_ reg cols left right) := by
  constructor
  · exact List.all_eq_true
  · intro left' right' hl hr
    unfold comparator_
    induction cols with
    | nil => rfl
    | cons c cs ih =>
      simp only [List.all_cons]
      rw [hl c (List.mem_cons_self c cs), hr c (List.mem_cons_self c cs),
        ih (fun col hcol => hl col (List.mem_cons_of_mem c hcol))
          (fun col hcol => hr col (List.mem_cons_of_mem c hcol))]

/-- C5 witness: two entries with different identities, payloads and
values outside the projected column compare exactly like the originals. -/
theorem comparator_structural_eq_witness :
    (∀ column ∈ cols0, (⟨5, ⟨77⟩, fun c => if c = c0 then 1 else 9⟩ : Entry).getField column
        = eA.getField column) ∧
    comparator_ stdReg cols0 ⟨5, ⟨77⟩, fun c => if c = c0 then 1 else 9⟩ eB
      = comparator_ stdReg cols0 eA eB := by
  refine ⟨by decide, ?_⟩
  exact (comparator_structural_eq stdReg cols0 eA eB).2
    ⟨5, ⟨77⟩, fun c => if c = c0 then 1 else 9⟩ eB (by decide) (fun _ _ => rfl)

/-- Select-all characterization of `detectColumns_`: with no explicit
projection, the resolved columns are the flattened column lists of the
source tables followed by the joined table when present. -/
theorem detectColumns_selectAll (q : SelectContext) (h : q.columns = []) :
    detectColumns_ q = ((q.from_ ++ q.innerJoin.toList).map Table.getColumns).flatten := by
  unfold detectColumns_
  rw [if_neg (by simp [h])]
  have hfold : ∀ (ts : List Table) (init : List Column),
      ts.foldl (fun cols table => cols ++ table.getColumns) init
        = init ++ (ts.map Table.getColumns).flatten := by
    intro ts
    induction ts with
    | nil => intro init; simp
    | cons t ts' ih => intro init; simp [ih]
  cases hj : q.innerJoin with
  | none => simp [hj, hfold]
  | some t => simp [hj, hfold]

/-- C6: column projection resolution — a non-empty explicit projection
is returned unchanged; a select-all projection concatenates, in table
order, the column lists of the source tables and then of the joined
table when present, without deduplication. -/
theorem detectColumns_resolution (q : SelectContext) :
    (q.columns ≠ [] → detectColumns_ q = q.columns) ∧
    (q.columns = [] →
      detectColumns_ q =
        ((q.from_ ++ q.innerJoin.toList).map Table.getColumns).flatten) := by
  constructor
  · intro h
    unfold detectColumns_
    rw [if_pos]
    exact List.length_pos.mpr h
  · exact detectColumns_selectAll q

/-- C6 witness: the section 8 scenario — select-all over a source table
with columns a, b and a joined table with column c resolves to
a, b, c in that order. -/
theorem detectColumns_resolution_witness :
    qJoin.columns = [] ∧ detectColumns_ qJoin = [colA, colB, colC] := by
  refine ⟨rfl, ?_⟩
  rw [(detectColumns_resolution qJoin).2 rfl]
  rfl

/-- C10: with an empty resolved column list — for instance a select-all
projection over tables exposing no columns — the per-column conjunction
of the comparator is vacuous, so any two entries compare equal. -/
theorem comparator_vacuous_empty_columns (reg : Registry) (q : SelectContext)
    (left right : Entry) (hq : q.columns = [])
    (ht : ∀ t ∈ q.from_ ++ q.innerJoin.toList, t.getColumns = []) :
    detectColumns_ q = [] ∧ comparator_ reg (detectColumns_ q) left right = true := by
  have hcols : detectColumns_ q = [] := by
    rw [detectColumns_selectAll q hq]
    rw [List.flatten_eq_nil_iff]
    intro l hl
    rcases List.mem_map.mp hl with ⟨t, hmem, rfl⟩
    exact ht t hmem
  exact ⟨hcols, by rw [hcols]; rfl⟩

/-- C10 witness: entries with unequal field values and payloads compare
equal under the empty projection resolved from columnless tables. -/
theorem comparator_vacuous_empty_columns_witness :
    qEmptyCols.columns = [] ∧
    detectColumns_ qEmptyCols = [] ∧
    comparator_ stdReg (detectColumns_ qEmptyCols) eA eB = true := by
  have h := comparator_vacuous_empty_columns stdReg qEmptyCols eA eB rfl (by decide)
  exact ⟨rfl, h.1, h.2⟩

/-- C2: the two patch loops, step by step — on an identity match the
cursor advances and the observed array is untouched; on a mismatch the
deletion loop removes the element at position `i` (take `i`, skip one,
keep the rest) without advancing the cursor, and the insertion loop
inserts the raw payload of the walked entry at position `i` without
advancing the cursor. -/
theorem applyDiff_two_pass_steps (keep : List Entry) (entry : Entry)
    (rest : List Entry) (i c : Nat) (obs : List Int) :
    (instMatchAt keep c entry = true →
      deletionPassIdx keep (entry :: rest) i c obs
          = deletionPassIdx keep rest (i + 1) (c + 1) obs ∧
      insertionPassIdx keep (entry :: rest) i c obs
          = insertionPassIdx keep rest (i + 1) (c + 1) obs) ∧
    (instMatchAt keep c entry = false →
      deletionPassIdx keep (entry :: rest) i c obs
          = ((deletionPassIdx keep rest (i + 1) c (obs.take i ++ obs.drop (i + 1))).1,
             Op.del i ::
               (deletionPassIdx keep rest (i + 1) c (obs.take i ++ obs.drop (i + 1))).2) ∧
      insertionPassIdx keep (entry :: rest) i c obs
          = ((insertionPassIdx keep rest (i + 1) c
                (obs.take i ++ entry.row.payload :: obs.drop i)).1,
             Op.ins i entry.row.payload ::
               (insertionPassIdx keep rest (i + 1) c
                 (obs.take i ++ entry.row.payload :: obs.drop i)).2)) := by
  refine ⟨fun h => ⟨?_, ?_⟩, fun h => ⟨?_, ?_⟩⟩ <;>
    simp [deletionPassIdx, insertionPassIdx, spliceRemove, spliceInsert, h]

/-- C2 witness: a concrete mismatch step removes the element at the
walked position. -/
theorem applyDiff_two_pass_steps_witness :
    instMatchAt [] 0 eA = false ∧
    deletionPassIdx [] [eA] 0 0 [10] = ([], [Op.del 0]) := by
  refine ⟨rfl, ?_⟩
  rw [((applyDiff_two_pass_steps [] eA [] 0 0 [10]).2 rfl).1]
  rfl

/-- C8: the two LCS invocations of `applyDiff` are the two projections
of one and the same matched pair list — they have equal length, the
left run collects the old-side entry and the right run the new-side
entry of each matched index pair, every matched pair is in range, and
the comparator holds between the collected entries at every position. -/
theorem applyDiff_double_lcs_agreement (reg : Registry) (cols : List Column)
    (A B : List Entry) :
    (longestCommonSubsequence A B (comparator_ reg cols)
        (fun indexLeft _indexRight => A.getD indexLeft dEntry)).length
      = (longestCommonSubsequence A B (comparator_ reg cols)
          (fun _indexLeft indexRight => B.getD indexRight dEntry)).length ∧
    longestCommonSubsequence A B (comparator_ reg cols)
        (fun indexLeft _indexRight => A.getD indexLeft dEntry)
      = (lcsPairs (comparator_ reg cols) A B).map (fun p => A.getD p.1 dEntry) ∧
    longestCommonSubsequence A B (comparator_ reg cols)
        (fun _indexLeft indexRight => B.getD indexRight dEntry)
      = (lcsPairs (comparator_ reg cols) A B).map (fun p => B.getD p.2 dEntry) ∧
    (∀ p ∈ lcsPairs (comparator_ reg cols) A B, p.1 < A.length ∧ p.2 < B.length) ∧
    List.Forall₂ (fun x y => comparator_ reg cols x y = true)
      (longestCommonSubsequence A B (comparator_ reg cols)
        (fun indexLeft _indexRight => A.getD indexLeft dEntry))
      (longestCommonSubsequence A B (comparator_ reg cols)
        (fun _indexLeft indexRight => B.getD indexRight dEntry)) := by
  obtain ⟨hBound, _, _, hRel, _⟩ := lcsPairs_spec (comparator_ reg cols) dEntry A B
  refine ⟨?_, lcsCollect_left _ A B, lcsCollect_right _ A B, hBound, ?_⟩
  · rw [lcsCollect_left, lcsCollect_right, List.length_map, List.length_map]
  · rw [lcsCollect_left, lcsCollect_right]
    exact hRel

/-- C9: every mutation `applyDiff` performs on the observed array is one
of its recorded single-element positional splices — the final array is
exactly the initial array with the recorded operations replayed in
order, an insertion splice grows the array by one element, and a
deletion splice removes the element at its position when in range and
nothing otherwise; the engine bindings and the input result sets are
plain unmutated inputs of the function. -/
theorem applyDiff_frame (reg : Registry) (cols : List Column)
    (oldResults : Option Relation) (newResults : Relation) (obs : List Int) :
    (applyDiff reg cols oldResults newResults obs).1
        = (applyDiff reg cols oldResults newResults obs).2.foldl applyOp obs ∧
    (∀ (l : List Int) (i : Nat) (x : Int),
        (applyOp l (Op.ins i x)).length = l.length + 1) ∧
    (∀ (l : List Int) (i : Nat),
        (applyOp l (Op.del i)).length
          = l.length - (if i < l.length then 1 else 0)) := by
  refine ⟨?_, ?_, ?_⟩
  · rw [applyDiff_unfold]
    rw [List.foldl_append, ← deletionPassIdx_replay, ← insertionPassIdx_replay]
  · intro l i x
    simp [applyOp, spliceInsert]
    omega
  · intro l i
    simp [applyOp, spliceRemove]
    split <;> omega

theorem Op.isDel_eq_false_of_isIns (op : Op) (h : op.isIns = true) :
    op.isDel = false := by
  cases op
  · exact absurd h (by simp [Op.isIns])
  · rfl

/-- C3: minimality — for result sets with pairwise-distinct entry
instances, one `applyDiff` call issues exactly `len old - L` deletion
splices and `len new - L` insertion splices, `len old + len new - 2 * L`
splices in total, where `L` is the genuine longest-common-subsequence
length of the two entry lists under the comparator. -/
theorem applyDiff_minimality (reg : Registry) (cols : List Column)
    (old new : Relation) (obs : List Int)
    (hold : (old.entries.map Entry.id).Nodup)
    (hnew : (new.entries.map Entry.id).Nodup) :
    ((applyDiff reg cols (some old) new obs).2.filter Op.isDel).length
        = old.entries.length - lcsLength (comparator_ reg cols) old.entries new.entries ∧
    ((applyDiff reg cols (some old) new obs).2.filter Op.isIns).length
        = new.entries.length - lcsLength (comparator_ reg cols) old.entries new.entries ∧
    (applyDiff reg cols (some old) new obs).2.length
        = old.entries.length + new.entries.length
            - 2 * lcsLength (comparator_ reg cols) old.entries new.entries ∧
    IsLCSLength (comparator_ reg cols) old.entries new.entries
      (lcsLength (comparator_ reg cols) old.entries new.entries) := by
  obtain ⟨hBound, hSubA, hSubB, hRel, hLen⟩ :=
    lcsPairs_spec (comparator_ reg cols) dEntry old.entries new.entries
  rw [applyDiff_unfold]
  simp only [oldEntriesOf]
  set cmp := comparator_ reg cols with hcmp
  set keepL := (lcsPairs cmp old.entries new.entries).map
    (fun p => old.entries.getD p.1 dEntry) with hKL
  set keepR := (lcsPairs cmp old.entries new.entries).map
    (fun p => new.entries.getD p.2 dEntry) with hKR
  set L := lcsLength cmp old.entries new.entries with hLdef
  have hkeepLlen : keepL.length = L := by rw [hKL, List.length_map]; exact hLen
  have hkeepRlen : keepR.length = L := by rw [hKR, List.length_map]; exact hLen
  have hLleA : L ≤ old.entries.length := by
    rw [← hkeepLlen]; exact hSubA.length_le
  have hLleB : L ≤ new.entries.length := by
    rw [← hkeepRlen]; exact hSubB.length_le
  have hdel := deletionPassIdx_count old.entries keepL 0 0 obs
    (by rw [List.drop_zero]; exact hSubA) hold
  rw [List.drop_zero] at hdel
  have hins := insertionPassIdx_count new.entries keepR 0 0
    (deletionPassIdx keepL old.entries 0 0 obs).1
    (by rw [List.drop_zero]; exact hSubB) hnew
  rw [List.drop_zero] at hins
  have hInsNotDel : ∀ op ∈ (insertionPassIdx keepR new.entries 0 0
      (deletionPassIdx keepL old.entries 0 0 obs).1).2, ¬op.isDel = true := by
    intro op hop
    rw [Op.isDel_eq_false_of_isIns op (hins.2 op hop)]
    simp
  have hDelNotIns : ∀ op ∈ (deletionPassIdx keepL old.entries 0 0 obs).2,
      ¬op.isIns = true := by
    intro op hop
    cases op with
    | del _ => simp [Op.isIns]
    | ins _ _ => exact absurd (hdel.2 _ hop) (by simp [Op.isDel])
  refine ⟨?_, ?_, ?_, lcsLength_isLCSLength cmp dEntry old.entries new.entries⟩
  · rw [List.filter_append, List.filter_eq_self.mpr hdel.2,
      List.filter_eq_nil_iff.mpr hInsNotDel]
    simp [hdel.1, hkeepLlen]
  · rw [List.filter_append, List.filter_eq_self.mpr hins.2,
      List.filter_eq_nil_iff.mpr hDelNotIns]
    simp [hins.1, hkeepRlen]
  · rw [List.length_append, hdel.1, hins.1, hkeepLlen, hkeepRlen]
    omega

/-- C3 witness: the section 8 scenario with ids 1, 2, 3 against
1, 3, 4 — pairwise-distinct instances, one deletion and one insertion. -/
theorem applyDiff_minimality_witness :
    ((oldScenario.entries.map Entry.id).Nodup ∧
      (newScenario.entries.map Entry.id).Nodup) ∧
    (((applyDiff stdReg cols0 (some oldScenario) newScenario [101, 102, 103]).2.filter
        Op.isDel).length
        = oldScenario.entries.length
            - lcsLength (comparator_ stdReg cols0) oldScenario.entries newScenario.entries ∧
     ((applyDiff stdReg cols0 (some oldScenario) newScenario [101, 102, 103]).2.filter
        Op.isIns).length
        = newScenario.entries.length
            - lcsLength (comparator_ stdReg cols0) oldScenario.entries newScenario.entries ∧
     (applyDiff stdReg cols0 (some oldScenario) newScenario [101, 102, 103]).2.length
        = oldScenario.entries.length + newScenario.entries.length
            - 2 * lcsLength (comparator_ stdReg cols0) oldScenario.entries newScenario.entries ∧
     IsLCSLength (comparator_ stdReg cols0) oldScenario.entries newScenario.entries
       (lcsLength (comparator_ stdReg cols0) oldScenario.entries newScenario.entries)) :=
  ⟨⟨by decide, by decide⟩,
   applyDiff_minimality stdReg cols0 oldScenario newScenario [101, 102, 103]
     (by decide) (by decide)⟩

/-- C4: idempotence — diffing a result set against itself, with an
equality registry whose `EQ` evaluators are reflexive, pairwise-distinct
entry instances and an observed array already holding the payloads,
performs no splice at all and leaves the observed array untouched. -/
theorem applyDiff_idempotent (reg : Registry) (cols : List Column)
    (R : Relation) (obs : List Int)
    (hrefl : ∀ (ty : Nat) (v : Int), reg.getEvaluator ty EvalType.EQ v v = true)
    (hdist : (R.entries.map Entry.id).Nodup)
    (hobs : obs = R.entries.map (fun e => e.row.payload)) :
    applyDiff reg cols (some R) R obs = (obs, []) := by
  have hcmprefl : ∀ e ∈ R.entries, comparator_ reg cols e e = true := by
    intro e _
    exact List.all_eq_true.mpr (fun c _ => hrefl c.ty (e.getField c))
  have hdiag := lcsPairs_self (comparator_ reg cols) R.entries hcmprefl
  rw [applyDiff_unfold]
  simp only [oldEntriesOf]
  rw [hdiag]
  have hKL : ((List.range R.entries.length).map (fun k => (k, k))).map
      (fun p => R.entries.getD p.1 dEntry) = R.entries := by
    rw [List.map_map]
    exact map_getD_range R.entries dEntry
  have hKR : ((List.range R.entries.length).map (fun k => (k, k))).map
      (fun p => R.entries.getD p.2 dEntry) = R.entries := by
    rw [List.map_map]
    exact map_getD_range R.entries dEntry
  rw [hKL, hKR]
  rw [deletionPassIdx_self R.entries R.entries 0 0 obs (List.drop_zero _)]
  rw [insertionPassIdx_self R.entries R.entries 0 0 obs (List.drop_zero _)]
  rfl

/-- C4 witness: the scenario result set against itself with the
standard equality registry performs zero operations. -/
theorem applyDiff_idempotent_witness :
    (∀ (ty : Nat) (v : Int), stdReg.getEvaluator ty EvalType.EQ v v = true) ∧
    applyDiff stdReg cols0 (some oldScenario) oldScenario [101, 102, 103]
      = ([101, 102, 103], []) :=
  ⟨fun _ v => beq_self_eq_true v,
   applyDiff_idempotent stdReg cols0 oldScenario [101, 102, 103]
     (fun _ v => beq_self_eq_true v) (by decide) (by decide)⟩

/-- C1: convergence fails on the code — with old entries `eA, eB`, an
empty new result and an observed array holding exactly the old
payloads, `applyDiff` issues `splice(0, 1)` and then `splice(1, 1)`,
the second of which is out of range because the array has already
shrunk, leaving `[20]` where convergence demands the empty sequence. -/
theorem applyDiff_convergence_failure :
    [10, 20] = (Relation.mk [eA, eB]).entries.map (fun e => e.row.payload) ∧
    applyDiff stdReg cols0 (some (Relation.mk [eA, eB])) (Relation.mk []) [10, 20]
      = ([20], [Op.del 0, Op.del 1]) ∧
    ([20] : List Int) ≠ (Relation.mk ([] : List Entry)).entries.map (fun e => e.row.payload) := by
  refine ⟨by decide, ?_, by decide⟩
  rw [applyDiff_unfold]
  have hnil : lcsPairs (comparator_ stdReg cols0)
      (oldEntriesOf (some (Relation.mk [eA, eB]))) (Relation.mk ([] : List Entry)).entries
        = [] := by
    unfold lcsPairs
    simp [lcsPairsRev_nil_right]
  rw [hnil]
  rfl

end Lf
